import Mathlib

/-!
Verification of the FIR crossover in `plugins/crossover/src/crossover/fir.rs`.

The Rust code operates on `f32x2` sample pairs, but every arithmetic
operation acts component-wise and the two lanes carry identical filter
coefficients, so each definition below models a single lane.  Machine
floats are modelled by an arbitrary field, standing for exact arithmetic.

The biquad evaluator lives in `crate::crossover::iir::biquad`, which is not
among the sources; it is an external collaborator per the specification and
is modelled from the spec where needed.
-/

namespace Fir

/-- `FILTER_SIZE`: the number of FIR taps (121). -/
def FILTER_SIZE : ℕ := 121

/-- `RING_BUFFER_SIZE = FILTER_SIZE.next_power_of_two()`, i.e. 128. -/
def RING_BUFFER_SIZE : ℕ := 128

/-- `CENTER_IDX = FILTER_SIZE / 2`, the center tap index (60). -/
def CENTER_IDX : ℕ := FILTER_SIZE / 2

/-- `NUM_BANDS` from `plugins/crossover/src/lib.rs` (5). -/
def NUM_BANDS : ℕ := 5

/-- Modelled from the spec: the coefficients of the external biquad
evaluator (`crate::crossover::iir::biquad::BiquadCoefficients`, absent from
the sources) — a second-order recursive filter section with feedforward
taps `b0, b1, b2` and feedback taps `a1, a2`. -/
structure BiquadCoefficients (α : Type) where
  b0 : α
  b1 : α
  b2 : α
  a1 : α
  a2 : α

/-- Modelled from the spec: the external biquad evaluator's state — its
coefficients plus the two delay registers of a second-order section. -/
structure Biquad (α : Type) where
  coefficients : BiquadCoefficients α
  s1 : α
  s2 : α

variable {α : Type} [Field α]

/-- Modelled from the spec: `Biquad::process` — one step of the
second-order recursive section in transposed direct form II, returning the
output sample together with the updated state. -/
def Biquad.process (b : Biquad α) (x : α) : α × Biquad α :=
  let y := b.coefficients.b0 * x + b.s1
  (y,
   { b with
      s1 := b.coefficients.b1 * x - b.coefficients.a1 * y + b.s2
      s2 := b.coefficients.b2 * x - b.coefficients.a2 * y })

/-- Modelled from the spec: `Biquad::reset` clears the two state
registers, keeping the coefficients. -/
def Biquad.reset (b : Biquad α) : Biquad α :=
  { b with s1 := 0, s2 := 0 }

/-- Run the biquad over the listed buffer indices in order, replacing each
entry by the filter output (the Rust loops
`for sample in impulse_response.iter_mut()... { *sample = biquad.process(*sample) }`). -/
def filterAt (b : Biquad α) (ir : ℕ → α) : List ℕ → (ℕ → α) × Biquad α
  | [] => (ir, b)
  | i :: is =>
    let p := b.process (ir i)
    filterAt p.2 (Function.update ir i p.1) is

/-- The impulse seeded at `CENTER_IDX`, filtered forward over indices
`CENTER_IDX - 1 .. FILTER_SIZE - 1` and then, after a biquad reset, backward
over the same indices (`fir.rs` lines 349-363). -/
def bidirectionalIR (bqc : BiquadCoefficients α) : ℕ → α :=
  let impulse : ℕ → α := fun i => if i = CENTER_IDX then 1 else 0
  let idxs := List.range' (CENTER_IDX - 1) (FILTER_SIZE - (CENTER_IDX - 1))
  let fwd := (filterAt { coefficients := bqc, s1 := 0, s2 := 0 } impulse idxs).1
  (filterAt { coefficients := bqc, s1 := 0, s2 := 0 } fwd idxs.reverse).1

/-- The half Blackman window applied to indices `CENTER_IDX - 1 ..` of the
bidirectionally filtered impulse response (`fir.rs` lines 371-377).  The
weight function `w` stands for the transcendental
`0.42 - 0.5 * cos (blackman_scale_1 * i) + 0.08 * cos (blackman_scale_2 * i)`;
cosine has no exact-arithmetic counterpart, so the weights enter as a
parameter and every theorem below holds for an arbitrary weight function. -/
def windowedIR (w : ℕ → α) (bqc : BiquadCoefficients α) : ℕ → α :=
  fun i =>
    if CENTER_IDX - 1 ≤ i ∧ i < FILTER_SIZE then bidirectionalIR bqc i * w i
    else bidirectionalIR bqc i

/-- `would_be_impulse_response_sum` (`fir.rs` lines 381-383): twice the
windowed right-half sum minus the once-counted center tap. -/
def would_be_impulse_response_sum (w : ℕ → α) (bqc : BiquadCoefficients α) : α :=
  (∑ i in Finset.Ico CENTER_IDX FILTER_SIZE, windowedIR w bqc i) * 2 -
    windowedIR w bqc CENTER_IDX

/-- Every tap multiplied by the reciprocal of the would-be sum
(`fir.rs` lines 384-387). -/
def normalizedIR (w : ℕ → α) (bqc : BiquadCoefficients α) : ℕ → α :=
  fun i => windowedIR w bqc i * (would_be_impulse_response_sum w bqc)⁻¹

/-- `FirCoefficients::design_fourth_order_linear_phase_low_pass_from_biquad`:
the normalized right half mirrored onto the left half about `CENTER_IDX`
(`fir.rs` lines 389-394: `impulse_response[CENTER_IDX - (s - CENTER_IDX)] =
impulse_response[s]` for `s` in `CENTER_IDX + 1 .. FILTER_SIZE`). -/
def design_fourth_order_linear_phase_low_pass_from_biquad
    (w : ℕ → α) (bqc : BiquadCoefficients α) : ℕ → α :=
  fun i =>
    if i < CENTER_IDX then normalizedIR w bqc (2 * CENTER_IDX - i)
    else normalizedIR w bqc i

/-- Claim C2: for every biquad coefficient input, the designed kernel is
symmetric about the center index: tap `i` equals tap `FILTER_SIZE - 1 - i`
for every `i < FILTER_SIZE`. -/
theorem design_lowpass_symmetric (w : ℕ → α) (bqc : BiquadCoefficients α)
    (i : ℕ) (hi : i < FILTER_SIZE) :
    design_fourth_order_linear_phase_low_pass_from_biquad w bqc i =
      design_fourth_order_linear_phase_low_pass_from_biquad w bqc (FILTER_SIZE - 1 - i) := by
  have hF : FILTER_SIZE = 121 := rfl
  have hC : CENTER_IDX = 60 := rfl
  rw [hF] at hi
  unfold design_fourth_order_linear_phase_low_pass_from_biquad
  rw [hC, hF]
  rcases lt_trichotomy i 60 with h | h | h
  · rw [if_pos h, if_neg (by omega)]
  · subst h
    norm_num
  · rw [if_neg (by omega), if_pos (by omega)]
    have e : 2 * 60 - (121 - 1 - i) = i := by omega
    rw [e]

/-- Witness for C2 at the concrete input `i = 0` over `ℚ`, with a constant
weight function and an all-ones biquad. -/
theorem design_lowpass_symmetric_witness :
    (0 : ℕ) < FILTER_SIZE ∧
      design_fourth_order_linear_phase_low_pass_from_biquad
          (α := ℚ) (fun _ => 1) ⟨1, 1, 1, 1, 1⟩ 0 =
        design_fourth_order_linear_phase_low_pass_from_biquad
          (α := ℚ) (fun _ => 1) ⟨1, 1, 1, 1, 1⟩ (FILTER_SIZE - 1 - 0) :=
  ⟨by decide, design_lowpass_symmetric (fun _ => 1) ⟨1, 1, 1, 1, 1⟩ 0 (by decide)⟩

/-- Claim C3: whenever the pre-normalization windowed sum is non-zero, the
121 finished taps of the designed kernel sum to exactly 1. -/
theorem design_lowpass_sums_to_one (w : ℕ → α) (bqc : BiquadCoefficients α)
    (hS : would_be_impulse_response_sum w bqc ≠ 0) :
    ∑ i in Finset.range FILTER_SIZE,
        design_fourth_order_linear_phase_low_pass_from_biquad w bqc i = 1 := by
  have hF : FILTER_SIZE = 121 := rfl
  have hC : CENTER_IDX = 60 := rfl
  set n : ℕ → α := normalizedIR w bqc with hn
  -- split the 121 taps into the mirrored left half and the right half
  have hsplit :
      ∑ i in Finset.range FILTER_SIZE,
          design_fourth_order_linear_phase_low_pass_from_biquad w bqc i =
        (∑ i in Finset.Ico 0 60, n (2 * 60 - i)) + ∑ i in Finset.Ico 60 121, n i := by
    have e0 : ∑ i in Finset.range FILTER_SIZE,
        design_fourth_order_linear_phase_low_pass_from_biquad w bqc i =
        (∑ i in Finset.Ico 0 60,
          design_fourth_order_linear_phase_low_pass_from_biquad w bqc i) +
        ∑ i in Finset.Ico 60 121,
          design_fourth_order_linear_phase_low_pass_from_biquad w bqc i := by
      rw [hF, Finset.range_eq_Ico]
      exact (Finset.sum_Ico_consecutive _ (by omega) (by omega)).symm
    have e1 : ∑ i in Finset.Ico 0 60,
        design_fourth_order_linear_phase_low_pass_from_biquad w bqc i =
        ∑ i in Finset.Ico 0 60, n (2 * 60 - i) := by
      refine Finset.sum_congr rfl fun i hi => ?_
      rw [Finset.mem_Ico] at hi
      simp only [design_fourth_order_linear_phase_low_pass_from_biquad, hC]
      rw [if_pos (by omega)]
    have e2 : ∑ i in Finset.Ico 60 121,
        design_fourth_order_linear_phase_low_pass_from_biquad w bqc i =
        ∑ i in Finset.Ico 60 121, n i := by
      refine Finset.sum_congr rfl fun i hi => ?_
      rw [Finset.mem_Ico] at hi
      simp only [design_fourth_order_linear_phase_low_pass_from_biquad, hC]
      rw [if_neg (by omega)]
    rw [e0, e1, e2]
  -- the mirrored left half equals the sum over indices 61..120
  have hleft : ∑ i in Finset.Ico 0 60, n (2 * 60 - i) = ∑ i in Finset.Ico 61 121, n i := by
    rw [show Finset.Ico 0 60 = Finset.range 60 by rw [Finset.range_eq_Ico]]
    have hrefl := Finset.sum_range_reflect (fun j => n (61 + j)) 60
    calc ∑ i in Finset.range 60, n (2 * 60 - i)
        = ∑ i in Finset.range 60, n (61 + (60 - 1 - i)) := by
          refine Finset.sum_congr rfl fun i hi => ?_
          rw [Finset.mem_range] at hi
          have e : 2 * 60 - i = 61 + (60 - 1 - i) := by omega
          rw [e]
      _ = ∑ i in Finset.range 60, n (61 + i) := hrefl
      _ = ∑ i in Finset.Ico 61 121, n i := by
          rw [Finset.sum_Ico_eq_sum_range]
  have hbot : ∑ i in Finset.Ico 60 121, n i = n 60 + ∑ i in Finset.Ico 61 121, n i :=
    Finset.sum_eq_sum_Ico_succ_bot (by omega) n
  -- fold the normalization factor out of the sums
  have hfold : ∑ i in Finset.Ico 60 121, n i =
      (∑ i in Finset.Ico 60 121, windowedIR w bqc i) *
        (would_be_impulse_response_sum w bqc)⁻¹ := by
    rw [Finset.sum_mul]
    exact Finset.sum_congr rfl fun i _ => rfl
  have hn60 : n 60 = windowedIR w bqc 60 * (would_be_impulse_response_sum w bqc)⁻¹ := rfl
  have hIco : ∑ i in Finset.Ico 61 121, n i =
      (∑ i in Finset.Ico 60 121, n i) - n 60 := by
    rw [hbot]; ring
  rw [hsplit, hleft, hIco, hfold, hn60]
  have hSdef : would_be_impulse_response_sum w bqc =
      (∑ i in Finset.Ico CENTER_IDX FILTER_SIZE, windowedIR w bqc i) * 2 -
        windowedIR w bqc CENTER_IDX := rfl
  rw [hC, hF] at hSdef
  calc ((∑ i in Finset.Ico 60 121, windowedIR w bqc i) *
            (would_be_impulse_response_sum w bqc)⁻¹ -
          windowedIR w bqc 60 * (would_be_impulse_response_sum w bqc)⁻¹) +
        ((∑ i in Finset.Ico 60 121, windowedIR w bqc i) *
          (would_be_impulse_response_sum w bqc)⁻¹)
      = ((∑ i in Finset.Ico 60 121, windowedIR w bqc i) * 2 - windowedIR w bqc 60) *
          (would_be_impulse_response_sum w bqc)⁻¹ := by ring
    _ = would_be_impulse_response_sum w bqc *
          (would_be_impulse_response_sum w bqc)⁻¹ := by rw [← hSdef]
    _ = 1 := mul_inv_cancel₀ hS

/-- The biquad whose transfer function is the identity (`b0 = 1`, all other
taps zero) leaves any buffer unchanged when run over any index list. -/
lemma filterAt_identity (ir : ℕ → α) (l : List ℕ) :
    filterAt ⟨⟨1, 0, 0, 0, 0⟩, 0, 0⟩ ir l = (ir, ⟨⟨1, 0, 0, 0, 0⟩, 0, 0⟩) := by
  induction l generalizing ir with
  | nil => rfl
  | cons i is ih =>
    have hstep : Biquad.process (α := α) ⟨⟨1, 0, 0, 0, 0⟩, 0, 0⟩ (ir i) =
        (ir i, ⟨⟨1, 0, 0, 0, 0⟩, 0, 0⟩) := by
      simp [Biquad.process]
    show filterAt (Biquad.process ⟨⟨1, 0, 0, 0, 0⟩, 0, 0⟩ (ir i)).2
        (Function.update ir i (Biquad.process ⟨⟨1, 0, 0, 0, 0⟩, 0, 0⟩ (ir i)).1) is = _
    rw [hstep]
    simp only [Function.update_eq_self]
    exact ih ir

/-- With the identity biquad the bidirectionally filtered impulse response
is the seed impulse itself. -/
lemma bidirectionalIR_identity :
    bidirectionalIR (α := α) ⟨1, 0, 0, 0, 0⟩ =
      fun i => if i = CENTER_IDX then (1 : α) else 0 := by
  unfold bidirectionalIR
  simp only [filterAt_identity]

/-- With a constant weight function and the identity biquad the
pre-normalization windowed sum evaluates to 1. -/
lemma would_be_sum_identity :
    would_be_impulse_response_sum (α := α) (fun _ => 1) ⟨1, 0, 0, 0, 0⟩ = 1 := by
  have hC : CENTER_IDX = 60 := rfl
  have hF : FILTER_SIZE = 121 := rfl
  have hw : windowedIR (α := α) (fun _ => 1) ⟨1, 0, 0, 0, 0⟩ =
      fun i => if i = 60 then (1 : α) else 0 := by
    funext i
    unfold windowedIR
    rw [bidirectionalIR_identity, hC]
    split_ifs <;> simp_all
  unfold would_be_impulse_response_sum
  rw [hw, hC, hF]
  have hsum : ∑ i in Finset.Ico 60 121, (if i = 60 then (1 : α) else 0) = 1 := by
    rw [Finset.sum_eq_single_of_mem 60 (by simp)]
    · simp
    · intro b _ hb
      rw [if_neg hb]
  rw [hsum]
  norm_num

/-- Witness for C3 over `ℚ`: with a constant weight function and the
identity biquad the windowed sum is non-zero and the kernel sums to 1. -/
theorem design_lowpass_sums_to_one_witness :
    would_be_impulse_response_sum (α := ℚ) (fun _ => 1) ⟨1, 0, 0, 0, 0⟩ ≠ 0 ∧
      ∑ i in Finset.range FILTER_SIZE,
        design_fourth_order_linear_phase_low_pass_from_biquad
          (α := ℚ) (fun _ => 1) ⟨1, 0, 0, 0, 0⟩ i = 1 :=
  ⟨by rw [would_be_sum_identity]; exact one_ne_zero,
   design_lowpass_sums_to_one _ _ (by rw [would_be_sum_identity]; exact one_ne_zero)⟩

/-- `FirCrossoverType`: the single crossover mode. -/
inductive FirCrossoverType where
  | LinkwitzRiley24LinearPhase

/-- `FirFilter`: one band filter — its tap sequence (`FirCoefficients`,
an array of `FILTER_SIZE` sample pairs, modelled per lane as a function on
tap indices `< FILTER_SIZE`), the ring delay buffer (an array of
`RING_BUFFER_SIZE` sample pairs, modelled as a function on indices
`< RING_BUFFER_SIZE`) and the write cursor. -/
structure FirFilter (α : Type) where
  coefficients : ℕ → α
  delay_buffer : ℕ → α
  delay_buffer_next_idx : ℕ

/-- `FirCrossover`: the mode plus the `NUM_BANDS` band filters (an array
of 5, modelled as a function on indices `< NUM_BANDS`). -/
structure FirCrossover (α : Type) where
  mode : FirCrossoverType
  band_filters : ℕ → FirFilter α

/-- `FirCoefficients::default`: all zeroes except a unit at
`FILTER_SIZE / 2` — a pure delay of `FILTER_SIZE / 2` samples. -/
def FirCoefficients.default : ℕ → α :=
  fun i => if i = FILTER_SIZE / 2 then 1 else 0

/-- `FirFilter::default`: default coefficients, zeroed delay buffer,
cursor at zero. -/
def FirFilter.default : FirFilter α :=
  { coefficients := FirCoefficients.default
    delay_buffer := fun _ => 0
    delay_buffer_next_idx := 0 }

/-- `FirCrossover::new`: stores the mode and default band filters. -/
def FirCrossover.new (mode : FirCrossoverType) : FirCrossover α :=
  { mode := mode, band_filters := fun _ => FirFilter.default }

section Update

variable (w : ℕ → α) (lowpass : α → α → BiquadCoefficients α)

/-!
`FirCrossover::update` consumes `BiquadCoefficients::lowpass(sample_rate,
frequency, NEUTRAL_Q)` from the external biquad evaluator.  Modelled from
the spec: the evaluator provides coefficient construction from
`(sample_rate, frequency, Q)`; its trigonometric formulas have no
exact-arithmetic counterpart, so the construction enters as the parameter
`lowpass` (with `NEUTRAL_Q` fixed), and the theorems below hold for every
such construction and for every weight function `w`.
-/

/-- The designed low-pass FIR kernel for crossover `k`
(`fir.rs` lines 192-196 and 211-216). -/
def bandLP (sample_rate : α) (frequencies : ℕ → α) (k : ℕ) : ℕ → α :=
  design_fourth_order_linear_phase_low_pass_from_biquad w
    (lowpass sample_rate (frequencies k))

/-- `accumulated_ir` after the interior-band loop has handled crossovers
`1 ..= m`: seeded with band 0's low-pass kernel, each step adds the newly
formed band-pass kernel (`accumulated_ir += fir_bp_coefs`,
`fir.rs` lines 201-236). -/
def accumulated_ir (sample_rate : α) (frequencies : ℕ → α) : ℕ → ℕ → α
  | 0 => bandLP w lowpass sample_rate frequencies 0
  | m + 1 => fun j =>
      accumulated_ir sample_rate frequencies m j +
        (bandLP w lowpass sample_rate frequencies (m + 1) j -
          accumulated_ir sample_rate frequencies m j)

/-- `fir_bp_coefs` for interior band `m` (`m ≥ 1`): the next crossover's
low-pass kernel minus the accumulated response so far
(`fir.rs` lines 220-226). -/
def fir_bp_coefs (sample_rate : α) (frequencies : ℕ → α) (m : ℕ) : ℕ → α :=
  fun j =>
    bandLP w lowpass sample_rate frequencies m j -
      accumulated_ir w lowpass sample_rate frequencies (m - 1) j

/-- `fir_hp_coefs`: spectral inversion of the accumulated response after
crossover `m` — negate every tap, then add 1 to the center tap
(`fir.rs` lines 243-247). -/
def fir_hp_coefs (sample_rate : α) (frequencies : ℕ → α) (m : ℕ) : ℕ → α :=
  fun j =>
    if j = FILTER_SIZE / 2 then
      -accumulated_ir w lowpass sample_rate frequencies m j + 1
    else -accumulated_ir w lowpass sample_rate frequencies m j

/-- `FirCrossover::update` (`fir.rs` lines 164-252).  The Rust writes are,
in order: band 0 gets the first low-pass kernel; the zipped loop
`frequencies.iter().zip(band_filters.iter_mut()).take(num_bands - 1).skip(1)`
writes the band-pass kernels into bands `1 ..= num_bands - 2` (capped by
the four frequencies and five filters); finally band `num_bands - 1` gets
the spectral inversion of the accumulated response.  The branch order below
mirrors the write order reversed, so a later write shadows an earlier one.
Only the coefficients change; delay buffers and cursors are untouched. -/
def FirCrossover.update (c : FirCrossover α) (sample_rate : α)
    (num_bands : ℕ) (frequencies : ℕ → α) : FirCrossover α :=
  match c.mode with
  | FirCrossoverType.LinkwitzRiley24LinearPhase =>
    { c with
        band_filters := fun i =>
          if i + 1 = num_bands ∧ i < NUM_BANDS then
            { c.band_filters i with
                coefficients :=
                  fir_hp_coefs w lowpass sample_rate frequencies (num_bands - 2) }
          else if 1 ≤ i ∧ i + 1 < num_bands ∧ i < NUM_BANDS - 1 then
            { c.band_filters i with
                coefficients := fir_bp_coefs w lowpass sample_rate frequencies i }
          else if i = 0 then
            { c.band_filters i with
                coefficients := bandLP w lowpass sample_rate frequencies 0 }
          else c.band_filters i }

/-- The coefficient sequence that `FirCrossover::update` leaves in band
filter `i`, expressed branch by branch. -/
lemma update_band_coefficients (c : FirCrossover α) (sample_rate : α)
    (num_bands : ℕ) (frequencies : ℕ → α) (i : ℕ) :
    ((FirCrossover.update w lowpass c sample_rate num_bands frequencies).band_filters
        i).coefficients =
      if i + 1 = num_bands ∧ i < NUM_BANDS then
        fir_hp_coefs w lowpass sample_rate frequencies (num_bands - 2)
      else if 1 ≤ i ∧ i + 1 < num_bands ∧ i < NUM_BANDS - 1 then
        fir_bp_coefs w lowpass sample_rate frequencies i
      else if i = 0 then bandLP w lowpass sample_rate frequencies 0
      else (c.band_filters i).coefficients := by
  obtain ⟨mode, bf⟩ := c
  cases mode
  simp only [FirCrossover.update]
  split_ifs <;> rfl

/-- `FirCrossover::update` never touches a band filter's delay buffer or
write cursor. -/
lemma update_band_state (c : FirCrossover α) (sample_rate : α)
    (num_bands : ℕ) (frequencies : ℕ → α) (i : ℕ) :
    ((FirCrossover.update w lowpass c sample_rate num_bands frequencies).band_filters
          i).delay_buffer = (c.band_filters i).delay_buffer ∧
      ((FirCrossover.update w lowpass c sample_rate num_bands frequencies).band_filters
          i).delay_buffer_next_idx = (c.band_filters i).delay_buffer_next_idx := by
  obtain ⟨mode, bf⟩ := c
  cases mode
  simp only [FirCrossover.update]
  split_ifs <;> exact ⟨rfl, rfl⟩

/-- Telescoping: the tap-by-tap sum of band 0's low-pass kernel and the
band-pass kernels of bands `1 ..= m` is the accumulated response after
crossover `m`. -/
lemma sum_band_coefs (sample_rate : α) (frequencies : ℕ → α) (m t : ℕ) :
    ∑ i in Finset.range (m + 1),
        (if i = 0 then bandLP w lowpass sample_rate frequencies 0 t
         else fir_bp_coefs w lowpass sample_rate frequencies i t) =
      accumulated_ir w lowpass sample_rate frequencies m t := by
  induction m with
  | zero => simp [accumulated_ir]
  | succ k ih =>
    rw [Finset.sum_range_succ, ih, if_neg (Nat.succ_ne_zero k)]
    show accumulated_ir w lowpass sample_rate frequencies k t +
        (bandLP w lowpass sample_rate frequencies (k + 1) t -
          accumulated_ir w lowpass sample_rate frequencies (k + 1 - 1) t) =
      accumulated_ir w lowpass sample_rate frequencies k t +
        (bandLP w lowpass sample_rate frequencies (k + 1) t -
          accumulated_ir w lowpass sample_rate frequencies k t)
    rfl

end Update

/-- Claim C1: for every band count in `[2, 5]`, positive sample rate and
strictly ascending crossover frequencies, after `FirCrossover::update` the
tap-by-tap sum of the active band kernels is a unit impulse: 1 at the
center index `FILTER_SIZE / 2 = 60` and 0 at every other tap index (exact
in exact arithmetic). -/
theorem update_band_sum_is_unit_impulse {β : Type} [LinearOrderedField β]
    (w : ℕ → β) (lowpass : β → β → BiquadCoefficients β) (c : FirCrossover β)
    (sample_rate : β) (num_bands : ℕ) (frequencies : ℕ → β)
    (h2 : 2 ≤ num_bands) (h5 : num_bands ≤ NUM_BANDS) (hsr : 0 < sample_rate)
    (hasc : ∀ i j, i < j → j < NUM_BANDS - 1 → frequencies i < frequencies j)
    (t : ℕ) (ht : t < FILTER_SIZE) :
    ∑ i in Finset.range num_bands,
        ((FirCrossover.update w lowpass c sample_rate num_bands
            frequencies).band_filters i).coefficients t =
      if t = FILTER_SIZE / 2 then 1 else 0 := by
  have hN : NUM_BANDS = 5 := rfl
  rw [hN] at h5
  obtain ⟨m, rfl⟩ : ∃ m, num_bands = m + 2 := ⟨num_bands - 2, by omega⟩
  rw [Finset.sum_range_succ]
  have hmain : ∀ i ∈ Finset.range (m + 1),
      ((FirCrossover.update w lowpass c sample_rate (m + 2)
          frequencies).band_filters i).coefficients t =
        (if i = 0 then bandLP w lowpass sample_rate frequencies 0 t
         else fir_bp_coefs w lowpass sample_rate frequencies i t) := by
    intro i hi
    rw [Finset.mem_range] at hi
    rw [update_band_coefficients, hN]
    rw [if_neg (by omega)]
    by_cases h0 : i = 0
    · rw [if_neg (by omega), if_pos h0, if_pos h0]
    · rw [if_pos ⟨by omega, by omega, by omega⟩, if_neg h0]
  rw [Finset.sum_congr rfl hmain, sum_band_coefs]
  rw [update_band_coefficients, hN]
  rw [if_pos ⟨rfl, by omega⟩]
  have hm : m + 2 - 2 = m := by omega
  rw [hm]
  simp only [fir_hp_coefs]
  split_ifs with h
  · ring
  · ring

/-- Witness for C1 over `ℚ` at `num_bands = 2`, unit sample rate, the
identity crossover frequencies and tap index 0. -/
theorem update_band_sum_is_unit_impulse_witness :
    (2 ≤ 2) ∧ (2 ≤ NUM_BANDS) ∧ ((0 : ℚ) < 1) ∧
      (∀ i j : ℕ, i < j → j < NUM_BANDS - 1 → ((i : ℚ)) < ((j : ℚ))) ∧
      ((0 : ℕ) < FILTER_SIZE) ∧
      ∑ i in Finset.range 2,
          ((FirCrossover.update (fun _ => (1 : ℚ)) (fun _ _ => ⟨1, 0, 0, 0, 0⟩)
              (FirCrossover.new FirCrossoverType.LinkwitzRiley24LinearPhase) 1 2
              (fun j => (j : ℚ))).band_filters i).coefficients 0 =
        if (0 : ℕ) = FILTER_SIZE / 2 then 1 else 0 :=
  ⟨by decide, by decide, by norm_num,
   fun i j hij _ => by exact_mod_cast hij, by decide,
   update_band_sum_is_unit_impulse _ _ _ _ _ _ (by decide) (by decide)
     (by norm_num) (fun i j hij _ => by exact_mod_cast hij) 0 (by decide)⟩

/-- Claim C6: after `FirCrossover::update` with two bands, band 0 holds
exactly the designed low-pass kernel for the first crossover frequency and
band 1 is its spectral inversion — every tap negated, with 1 added to the
center tap. -/
theorem update_two_bands_spectral_inversion (w : ℕ → α)
    (lowpass : α → α → BiquadCoefficients α) (c : FirCrossover α)
    (sample_rate : α) (frequencies : ℕ → α) :
    ((FirCrossover.update w lowpass c sample_rate 2 frequencies).band_filters
          0).coefficients =
        design_fourth_order_linear_phase_low_pass_from_biquad w
          (lowpass sample_rate (frequencies 0)) ∧
      ∀ t, ((FirCrossover.update w lowpass c sample_rate 2
              frequencies).band_filters 1).coefficients t =
          -(((FirCrossover.update w lowpass c sample_rate 2
              frequencies).band_filters 0).coefficients t) +
            (if t = FILTER_SIZE / 2 then 1 else 0) := by
  have hN : NUM_BANDS = 5 := rfl
  have h0 : ((FirCrossover.update w lowpass c sample_rate 2
        frequencies).band_filters 0).coefficients =
      bandLP w lowpass sample_rate frequencies 0 := by
    rw [update_band_coefficients, hN]
    rw [if_neg (by omega), if_neg (by omega), if_pos rfl]
  refine ⟨h0, fun t => ?_⟩
  rw [h0]
  rw [update_band_coefficients, hN]
  rw [if_pos ⟨rfl, by omega⟩]
  show fir_hp_coefs w lowpass sample_rate frequencies 0 t = _
  simp only [fir_hp_coefs]
  show (if t = FILTER_SIZE / 2 then
      -bandLP w lowpass sample_rate frequencies 0 t + 1
    else -bandLP w lowpass sample_rate frequencies 0 t) = _
  split_ifs with h
  · ring
  · ring

/-- Claim C8: for every band count in `[2, 5]`, `FirCrossover::update`
leaves every filter's delay buffer and write cursor unchanged and leaves
the coefficient sequences of the unused slots `num_bands ..` unchanged. -/
theorem update_frame_condition (w : ℕ → α)
    (lowpass : α → α → BiquadCoefficients α) (c : FirCrossover α)
    (sample_rate : α) (num_bands : ℕ) (frequencies : ℕ → α)
    (h2 : 2 ≤ num_bands) (h5 : num_bands ≤ NUM_BANDS) :
    (∀ i,
        ((FirCrossover.update w lowpass c sample_rate num_bands
              frequencies).band_filters i).delay_buffer =
            (c.band_filters i).delay_buffer ∧
          ((FirCrossover.update w lowpass c sample_rate num_bands
              frequencies).band_filters i).delay_buffer_next_idx =
            (c.band_filters i).delay_buffer_next_idx) ∧
      ∀ i, num_bands ≤ i →
        (FirCrossover.update w lowpass c sample_rate num_bands
            frequencies).band_filters i = c.band_filters i := by
  refine ⟨fun i => update_band_state w lowpass c sample_rate num_bands frequencies i,
    fun i hi => ?_⟩
  obtain ⟨mode, bf⟩ := c
  cases mode
  simp only [FirCrossover.update]
  rw [if_neg (by omega), if_neg (by omega), if_neg (by omega)]

/-- Witness for C8 over `ℚ` with two bands: the unused slot 3 of a fresh
crossover is untouched by `update`. -/
theorem update_frame_condition_witness :
    (2 ≤ 2) ∧ (2 ≤ NUM_BANDS) ∧
      (FirCrossover.update (fun _ => (1 : ℚ)) (fun _ _ => ⟨1, 0, 0, 0, 0⟩)
          (FirCrossover.new FirCrossoverType.LinkwitzRiley24LinearPhase) 1 2
          (fun j => (j : ℚ))).band_filters 3 =
        (FirCrossover.new (α := ℚ)
            FirCrossoverType.LinkwitzRiley24LinearPhase).band_filters 3 :=
  ⟨by decide, by decide,
   (update_frame_condition (fun _ => (1 : ℚ)) (fun _ _ => ⟨1, 0, 0, 0, 0⟩)
       (FirCrossover.new FirCrossoverType.LinkwitzRiley24LinearPhase) 1 2
       (fun j => (j : ℚ)) (by decide) (by decide)).2 3 (by decide)⟩

/-- `before_wraparound_start_idx = delay_buffer_next_idx.saturating_sub(
coefficients.len() - 1)` (`fir.rs` lines 273-275); natural subtraction is
saturating. -/
def before_wraparound_start_idx (idx : ℕ) : ℕ :=
  idx - (FILTER_SIZE - 1)

/-- `num_before_wraparound = before_wraparound_end_idx -
before_wraparound_start_idx` (`fir.rs` line 277), with
`before_wraparound_end_idx = delay_buffer_next_idx`. -/
def num_before_wraparound (idx : ℕ) : ℕ :=
  idx - before_wraparound_start_idx idx

/-- `after_wraparound_begin_idx = delay_buffer.len() - (coefficients.len()
- num_before_wraparound)` (`fir.rs` lines 287-288). -/
def after_wraparound_begin_idx (idx : ℕ) : ℕ :=
  RING_BUFFER_SIZE - (FILTER_SIZE - num_before_wraparound idx)

/-- `FirFilter::process` (`fir.rs` lines 264-303).  The first loop zips
`coefficients[1 .. 1 + num_before_wraparound]` with the reversed slice
`delay_buffer[before_wraparound_start_idx .. before_wraparound_end_idx]`,
whose element `j` (counting from the end) is
`delay_buffer[before_wraparound_end_idx - 1 - j]`.  The second loop zips
`coefficients[1 + num_before_wraparound ..]` — `FILTER_SIZE - 1 -
num_before_wraparound` taps, which is what the zip truncates to — with the
reversed tail slice `delay_buffer[after_wraparound_begin_idx ..]`, whose
element `j` from the end is `delay_buffer[RING_BUFFER_SIZE - 1 - j]`.
Fused multiply-adds coincide with `c * s + acc` in exact arithmetic, and
the fold order differs from the sums below only by associativity and
commutativity of addition.  Afterwards the input is written at the cursor
and the cursor advances modulo the buffer length. -/
def FirFilter.process (f : FirFilter α) (samples : α) : α × FirFilter α :=
  let num := num_before_wraparound f.delay_buffer_next_idx
  let result := f.coefficients 0 * samples
      + ∑ j in Finset.range num,
          f.coefficients (1 + j) * f.delay_buffer (f.delay_buffer_next_idx - 1 - j)
      + ∑ j in Finset.range (FILTER_SIZE - 1 - num),
          f.coefficients (1 + num + j) * f.delay_buffer (RING_BUFFER_SIZE - 1 - j)
  (result,
   { f with
       delay_buffer := Function.update f.delay_buffer f.delay_buffer_next_idx samples
       delay_buffer_next_idx := (f.delay_buffer_next_idx + 1) % RING_BUFFER_SIZE })

/-- `FirFilter::reset` (`fir.rs` lines 306-309): zero the delay buffer and
the cursor. -/
def FirFilter.reset (f : FirFilter α) : FirFilter α :=
  { f with delay_buffer := fun _ => 0, delay_buffer_next_idx := 0 }

/-- `FirCrossover::reset` (`fir.rs` lines 255-259): reset every band
filter. -/
def FirCrossover.reset (c : FirCrossover α) : FirCrossover α :=
  { c with band_filters := fun i => (c.band_filters i).reset }

/-- `FirCrossover::process` (`fir.rs` lines 128-160): fan the input sample
pair through the first `num_bands` band filters
(`band_filters.iter_mut().zip(band_outputs).take(num_bands)`, capped at the
five filters), each output slot receiving its filter's output; the
remaining slots keep their previous contents.  `main_io` enters by value
and is never written: the function returns only the band outputs and the
updated filter states. -/
def FirCrossover.process (c : FirCrossover α) (num_bands : ℕ) (samples : α)
    (band_outputs : ℕ → α) : (ℕ → α) × FirCrossover α :=
  match c.mode with
  | FirCrossoverType.LinkwitzRiley24LinearPhase =>
    ( fun i =>
        if i < num_bands ∧ i < NUM_BANDS then ((c.band_filters i).process samples).1
        else band_outputs i
    , { c with
          band_filters := fun i =>
            if i < num_bands ∧ i < NUM_BANDS then ((c.band_filters i).process samples).2
            else c.band_filters i } )

/-- The filter state after feeding the first `n` samples of the stream `x`
through repeated `FirFilter::process` calls. -/
def FirFilter.runInputs (f : FirFilter α) (x : ℕ → α) : ℕ → FirFilter α
  | 0 => f
  | n + 1 => ((f.runInputs x n).process (x n)).2

/-- The output that `FirFilter::process` produces for sample `x n`, after
the first `n` samples of the stream `x` have been fed. -/
def FirFilter.outputAt (f : FirFilter α) (x : ℕ → α) (n : ℕ) : α :=
  ((f.runInputs x n).process (x n)).1

/-- The two wraparound-split loops of `FirFilter::process` compute the
direct-form convolution: if the delay buffer holds `hist k` at ring
position `cursor - k (mod 128)` for `k` in `[1, 120]`, the returned sample
is tap 0 times the live input plus the taps `1 .. 120` against the
history. -/
lemma process_fst_convolution (f : FirFilter α) (x : α) (hist : ℕ → α)
    (hidx : f.delay_buffer_next_idx < 128)
    (hhist : ∀ k, 1 ≤ k → k ≤ 120 →
        f.delay_buffer ((f.delay_buffer_next_idx + 128 - k) % 128) = hist k) :
    (f.process x).1 = f.coefficients 0 * x +
      ∑ k in Finset.Ico 1 FILTER_SIZE, f.coefficients k * hist k := by
  obtain ⟨c, buf, idx⟩ := f
  dsimp only at hidx hhist ⊢
  show c 0 * x
      + (∑ j in Finset.range (idx - (idx - 120)), c (1 + j) * buf (idx - 1 - j))
      + (∑ j in Finset.range (120 - (idx - (idx - 120))),
          c (1 + (idx - (idx - 120)) + j) * buf (127 - j))
    = c 0 * x + ∑ k in Finset.Ico 1 121, c k * hist k
  have e1 : (∑ j in Finset.range (idx - (idx - 120)), c (1 + j) * buf (idx - 1 - j))
      = ∑ j in Finset.range (idx - (idx - 120)), c (1 + j) * hist (1 + j) := by
    refine Finset.sum_congr rfl fun j hj => ?_
    rw [Finset.mem_range] at hj
    rw [← hhist (1 + j) (by omega) (by omega)]
    have e : (idx + 128 - (1 + j)) % 128 = idx - 1 - j := by omega
    rw [e]
  have e2 : (∑ j in Finset.range (120 - (idx - (idx - 120))),
        c (1 + (idx - (idx - 120)) + j) * buf (127 - j))
      = ∑ j in Finset.range (120 - (idx - (idx - 120))),
          c (1 + (idx - (idx - 120)) + j) * hist (1 + (idx - (idx - 120)) + j) := by
    refine Finset.sum_congr rfl fun j hj => ?_
    rw [Finset.mem_range] at hj
    rw [← hhist (1 + (idx - (idx - 120)) + j) (by omega) (by omega)]
    have e : (idx + 128 - (1 + (idx - (idx - 120)) + j)) % 128 = 127 - j := by omega
    rw [e]
  have e3 : ∑ k in Finset.Ico 1 121, c k * hist k
      = (∑ j in Finset.range (idx - (idx - 120)), c (1 + j) * hist (1 + j))
        + ∑ j in Finset.range (120 - (idx - (idx - 120))),
            c (1 + (idx - (idx - 120)) + j) * hist (1 + (idx - (idx - 120)) + j) := by
    rw [Finset.sum_Ico_eq_sum_range]
    have hsplit : 121 - 1 = (idx - (idx - 120)) + (120 - (idx - (idx - 120))) := by omega
    rw [hsplit, Finset.sum_range_add]
    have etail : ∑ j in Finset.range (120 - (idx - (idx - 120))),
        c (1 + ((idx - (idx - 120)) + j)) * hist (1 + ((idx - (idx - 120)) + j))
        = ∑ j in Finset.range (120 - (idx - (idx - 120))),
            c (1 + (idx - (idx - 120)) + j) * hist (1 + (idx - (idx - 120)) + j) := by
      refine Finset.sum_congr rfl fun j hj => ?_
      rw [add_assoc]
    exact congrArg (fun s =>
      (∑ j in Finset.range (idx - (idx - 120)), c (1 + j) * hist (1 + j)) + s) etail
  rw [e1, e2, e3, add_assoc]

/-- Claim C4: when the delay buffer holds the previous 120 inputs at ring
positions `cursor - 1 .. cursor - 120 (mod 128)`, `FirFilter::process`
returns the direct-form convolution with tap 0 applied to the live input,
then writes the input at the cursor and advances the cursor by one modulo
the buffer length. -/
theorem fir_process_direct_form (f : FirFilter α) (x : α) (hist : ℕ → α)
    (hidx : f.delay_buffer_next_idx < RING_BUFFER_SIZE)
    (hhist : ∀ k, 1 ≤ k → k ≤ FILTER_SIZE - 1 →
        f.delay_buffer
            ((f.delay_buffer_next_idx + RING_BUFFER_SIZE - k) % RING_BUFFER_SIZE) =
          hist k) :
    (f.process x).1 =
        ∑ k in Finset.range FILTER_SIZE,
          f.coefficients k * (if k = 0 then x else hist k) ∧
      (f.process x).2.delay_buffer =
        Function.update f.delay_buffer f.delay_buffer_next_idx x ∧
      (f.process x).2.delay_buffer_next_idx =
        (f.delay_buffer_next_idx + 1) % RING_BUFFER_SIZE := by
  refine ⟨?_, rfl, rfl⟩
  rw [process_fst_convolution f x hist hidx hhist]
  rw [Finset.range_eq_Ico,
    Finset.sum_eq_sum_Ico_succ_bot (by decide : (0 : ℕ) < FILTER_SIZE)]
  rw [if_pos rfl]
  have e : ∑ k in Finset.Ico (0 + 1) FILTER_SIZE,
      f.coefficients k * (if k = 0 then x else hist k)
      = ∑ k in Finset.Ico 1 FILTER_SIZE, f.coefficients k * hist k := by
    refine Finset.sum_congr (by norm_num) fun k hk => ?_
    rw [Finset.mem_Ico] at hk
    rw [if_neg (by omega)]
  rw [e]

/-- Witness for C4 over `ℚ`: a default filter with all-zero history,
processing the input 1. -/
theorem fir_process_direct_form_witness :
    ((FirFilter.default (α := ℚ)).delay_buffer_next_idx < RING_BUFFER_SIZE) ∧
      ((FirFilter.default (α := ℚ)).process 1).1 =
        ∑ k in Finset.range FILTER_SIZE,
          (FirFilter.default (α := ℚ)).coefficients k *
            (if k = 0 then (1 : ℚ) else 0) :=
  ⟨by decide,
   (fir_process_direct_form (FirFilter.default (α := ℚ)) 1 (fun _ => 0)
       (by decide) (fun k h1 h2 => rfl)).1⟩

/-- Claim C10: every `FirFilter` operation keeps the cursor inside the
ring buffer, and under that invariant every index range formed inside
`process` is in bounds: the pre-wraparound range is at most the cursor,
`num_before_wraparound` is at most `FILTER_SIZE - 1`, the coefficient
slices stay inside the tap array, and neither tail-range subtraction
underflows. -/
theorem fir_process_index_safety (f : FirFilter α) (x : α)
    (h : f.delay_buffer_next_idx < RING_BUFFER_SIZE) :
    ((f.process x).2.delay_buffer_next_idx < RING_BUFFER_SIZE) ∧
      (f.reset.delay_buffer_next_idx < RING_BUFFER_SIZE) ∧
      ((FirFilter.default (α := α)).delay_buffer_next_idx < RING_BUFFER_SIZE) ∧
      (before_wraparound_start_idx f.delay_buffer_next_idx ≤ f.delay_buffer_next_idx) ∧
      (f.delay_buffer_next_idx ≤ RING_BUFFER_SIZE) ∧
      (num_before_wraparound f.delay_buffer_next_idx ≤ FILTER_SIZE - 1) ∧
      (1 + num_before_wraparound f.delay_buffer_next_idx ≤ FILTER_SIZE) ∧
      (FILTER_SIZE - num_before_wraparound f.delay_buffer_next_idx ≤ RING_BUFFER_SIZE) ∧
      (after_wraparound_begin_idx f.delay_buffer_next_idx ≤ RING_BUFFER_SIZE) := by
  have h' : f.delay_buffer_next_idx < 128 := h
  refine ⟨?_, ?_, ?_, ?_, ?_, ?_, ?_, ?_, ?_⟩
  · show (f.delay_buffer_next_idx + 1) % 128 < 128
    omega
  · show (0 : ℕ) < 128
    omega
  · show (0 : ℕ) < 128
    omega
  · show f.delay_buffer_next_idx - (121 - 1) ≤ f.delay_buffer_next_idx
    omega
  · show f.delay_buffer_next_idx ≤ 128
    omega
  · show f.delay_buffer_next_idx - (f.delay_buffer_next_idx - (121 - 1)) ≤ 121 - 1
    omega
  · show 1 + (f.delay_buffer_next_idx - (f.delay_buffer_next_idx - (121 - 1))) ≤ 121
    omega
  · show 121 - (f.delay_buffer_next_idx - (f.delay_buffer_next_idx - (121 - 1))) ≤ 128
    omega
  · show 128 - (121 - (f.delay_buffer_next_idx -
        (f.delay_buffer_next_idx - (121 - 1)))) ≤ 128
    omega

/-- Witness for C10 over `ℚ` at the default filter. -/
theorem fir_process_index_safety_witness :
    ((FirFilter.default (α := ℚ)).delay_buffer_next_idx < RING_BUFFER_SIZE) ∧
      ((FirFilter.default (α := ℚ)).process 0).2.delay_buffer_next_idx <
        RING_BUFFER_SIZE :=
  ⟨by decide, (fir_process_index_safety (FirFilter.default (α := ℚ)) 0 (by decide)).1⟩

/-- `FirFilter::process` never touches the coefficients, so neither does
feeding a stream. -/
lemma runInputs_coefficients (f : FirFilter α) (x : ℕ → α) (n : ℕ) :
    (f.runInputs x n).coefficients = f.coefficients := by
  induction n with
  | zero => rfl
  | succ n ih =>
    show ((f.runInputs x n).process (x n)).2.coefficients = f.coefficients
    exact ih

/-- After feeding `n` samples from the default state, the cursor sits at
`n` modulo the ring length. -/
lemma runInputs_default_idx (x : ℕ → α) (n : ℕ) :
    ((FirFilter.default (α := α)).runInputs x n).delay_buffer_next_idx = n % 128 := by
  induction n with
  | zero => rfl
  | succ n ih =>
    show (((FirFilter.default (α := α)).runInputs x n).delay_buffer_next_idx + 1) % 128
        = (n + 1) % 128
    rw [ih]
    omega

/-- After feeding `n` samples from the default state, ring position
`cursor - k (mod 128)` holds `x (n - k)` for lags `k ≤ n` (up to the 120
retained samples) and 0 for lags reaching before the stream start. -/
lemma runInputs_default_hist (x : ℕ → α) (n : ℕ) :
    ∀ k, 1 ≤ k → k ≤ 120 →
      ((FirFilter.default (α := α)).runInputs x n).delay_buffer
          ((n % 128 + 128 - k) % 128) =
        if k ≤ n then x (n - k) else 0 := by
  induction n with
  | zero =>
    intro k h1 h2
    show (0 : α) = _
    rw [if_neg (by omega)]
  | succ n ih =>
    intro k h1 h2
    show Function.update ((FirFilter.default (α := α)).runInputs x n).delay_buffer
        (((FirFilter.default (α := α)).runInputs x n).delay_buffer_next_idx) (x n)
        (((n + 1) % 128 + 128 - k) % 128) = _
    rw [runInputs_default_idx]
    by_cases hk : k = 1
    · subst hk
      have e : ((n + 1) % 128 + 128 - 1) % 128 = n % 128 := by omega
      rw [e, Function.update_same, if_pos (by omega)]
      have e2 : n + 1 - 1 = n := by omega
      rw [e2]
    · have hne : ((n + 1) % 128 + 128 - k) % 128 ≠ n % 128 := by omega
      rw [Function.update_noteq hne]
      have e : ((n + 1) % 128 + 128 - k) % 128 = (n % 128 + 128 - (k - 1)) % 128 := by
        omega
      rw [e, ih (k - 1) (by omega) (by omega)]
      by_cases hkn : k ≤ n + 1
      · rw [if_pos (by omega), if_pos hkn]
        have e2 : n - (k - 1) = n + 1 - k := by omega
        rw [e2]
      · rw [if_neg (by omega), if_neg hkn]

/-- Claim C5: every band of a fresh `FirCrossover` (default-constructed
`FirFilter`, before any `update`) is a pure delay of `FILTER_SIZE / 2 = 60`
samples: the output for the `n`-th input is 0 for `n < 60` and `x (n - 60)`
afterwards. -/
theorem new_crossover_band_is_pure_delay (mode : FirCrossoverType) (i : ℕ)
    (x : ℕ → α) (n : ℕ) :
    ((FirCrossover.new (α := α) mode).band_filters i).outputAt x n =
      if n < FILTER_SIZE / 2 then 0 else x (n - FILTER_SIZE / 2) := by
  show (FirFilter.default (α := α)).outputAt x n = if n < 60 then 0 else x (n - 60)
  have hidx : ((FirFilter.default (α := α)).runInputs x n).delay_buffer_next_idx < 128 := by
    rw [runInputs_default_idx]
    omega
  have hh : ∀ k, 1 ≤ k → k ≤ 120 →
      ((FirFilter.default (α := α)).runInputs x n).delay_buffer
          ((((FirFilter.default (α := α)).runInputs x n).delay_buffer_next_idx +
            128 - k) % 128) =
        (fun k => if k ≤ n then x (n - k) else 0) k := by
    intro k h1 h2
    rw [runInputs_default_idx]
    exact runInputs_default_hist x n k h1 h2
  show ((((FirFilter.default (α := α)).runInputs x n)).process (x n)).1 = _
  rw [process_fst_convolution _ _ _ hidx hh]
  rw [runInputs_coefficients]
  have hc0 : (FirFilter.default (α := α)).coefficients 0 = 0 := by
    show (if (0 : ℕ) = FILTER_SIZE / 2 then (1 : α) else 0) = 0
    rw [if_neg (by decide)]
  rw [hc0, zero_mul, zero_add]
  have hzero : ∀ b ∈ Finset.Ico 1 FILTER_SIZE, b ≠ 60 →
      (FirFilter.default (α := α)).coefficients b *
        (fun k => if k ≤ n then x (n - k) else 0) b = 0 := by
    intro b _ hb
    have hc : (FirFilter.default (α := α)).coefficients b = 0 := by
      show (if b = FILTER_SIZE / 2 then (1 : α) else 0) = 0
      exact if_neg hb
    rw [hc, zero_mul]
  rw [Finset.sum_eq_single_of_mem 60 (by decide) hzero]
  show (if (60 : ℕ) = FILTER_SIZE / 2 then (1 : α) else 0) *
      (if 60 ≤ n then x (n - 60) else 0) = _
  rw [if_pos (by decide), one_mul]
  by_cases hn : 60 ≤ n
  · rw [if_pos hn, if_neg (by omega)]
  · rw [if_neg hn, if_pos (by omega)]

/-- Claim C7: two filters with equal coefficient sequences become
identical after `reset` — the canonical state with zeroed delay line and
cursor 0 — and hence produce identical outputs on any shared input
stream. -/
theorem reset_erases_history (f g : FirFilter α)
    (h : f.coefficients = g.coefficients) :
    f.reset = g.reset ∧ ∀ x n, f.reset.outputAt x n = g.reset.outputAt x n := by
  have he : f.reset = g.reset := by
    obtain ⟨fc, fb, fi⟩ := f
    obtain ⟨gc, gb, gi⟩ := g
    dsimp only at h
    simp only [FirFilter.reset]
    rw [h]
  exact ⟨he, fun x n => by rw [he]⟩

/-- Witness for C7 over `ℚ`: two filters sharing coefficients but with
different delay lines and cursors coincide after `reset`. -/
theorem reset_erases_history_witness :
    (FirFilter.mk (fun _ => (1 : ℚ)) (fun _ => 2) 5).coefficients =
        (FirFilter.mk (fun _ => (1 : ℚ)) (fun _ => 3) 7).coefficients ∧
      (FirFilter.mk (fun _ => (1 : ℚ)) (fun _ => 2) 5).reset =
        (FirFilter.mk (fun _ => (1 : ℚ)) (fun _ => 3) 7).reset :=
  ⟨rfl,
   (reset_erases_history (FirFilter.mk (fun _ => (1 : ℚ)) (fun _ => 2) 5)
       (FirFilter.mk (fun _ => (1 : ℚ)) (fun _ => 3) 7) rfl).1⟩

/-- Claim C9: `FirCrossover::process` writes exactly the first `num_bands`
output slots, slot `i` receiving band filter `i`'s output for the input
sample; the remaining slots keep their previous contents.  The main input
enters by value and the function returns only band outputs and filter
states, so it is never written. -/
theorem crossover_process_frame (c : FirCrossover α) (num_bands : ℕ)
    (samples : α) (band_outputs : ℕ → α)
    (h2 : 2 ≤ num_bands) (h5 : num_bands ≤ NUM_BANDS) :
    (∀ i, i < num_bands →
        (c.process num_bands samples band_outputs).1 i =
          ((c.band_filters i).process samples).1) ∧
      ∀ i, num_bands ≤ i →
        (c.process num_bands samples band_outputs).1 i = band_outputs i := by
  obtain ⟨mode, bf⟩ := c
  cases mode
  have h5' : num_bands ≤ 5 := h5
  constructor
  · intro i hi
    show (if i < num_bands ∧ i < NUM_BANDS then ((bf i).process samples).1
        else band_outputs i) = ((bf i).process samples).1
    rw [if_pos ⟨hi, (by omega : i < 5)⟩]
  · intro i hi
    show (if i < num_bands ∧ i < NUM_BANDS then ((bf i).process samples).1
        else band_outputs i) = band_outputs i
    rw [if_neg (by
      rintro ⟨hlt, -⟩
      omega)]

/-- Witness for C9 over `ℚ` with two bands: slot 3 keeps its previous
value. -/
theorem crossover_process_frame_witness :
    (2 ≤ 2) ∧ (2 ≤ NUM_BANDS) ∧
      ((FirCrossover.new (α := ℚ)
            FirCrossoverType.LinkwitzRiley24LinearPhase).process 2 1
          (fun _ => 9)).1 3 = (9 : ℚ) :=
  ⟨by decide, by decide,
   (crossover_process_frame
       (FirCrossover.new (α := ℚ) FirCrossoverType.LinkwitzRiley24LinearPhase) 2 1
       (fun _ => 9) (by decide) (by decide)).2 3 (by decide)⟩

end Fir
